import Mathlib

/-!
Verification of the TERRAF potential-field inversion core (`terraf_inv.py`,
`terraf_utils.py`, `terraf_mag.py`) against its natural-language specification.

Modelling conventions:
* Real-valued geophysics (sphere / prism forward models, regularized
  susceptibility inversion) is embedded over `ℝ`, with `Real.sqrt`,
  `Real.pi` and real powers standing for their floating-point counterparts.
* The rational-valued, NaN-sensitive pipeline (Euler deconvolution,
  min-max normalization, regional-residual separation, clustering) is
  embedded computably over `ℚ`, with a missing / NaN sample modelled as
  `Option.none` (NaN propagates through arithmetic as `none`).
* External dense linear-algebra routines (`np.linalg.lstsq`,
  `np.linalg.solve`, `scipy fclusterdata`, float `sqrt`) are oracles passed
  as explicit function parameters; the embedded code is faithful to how the
  Python source builds their inputs and consumes their outputs.
-/

open scoped BigOperators

noncomputable section RealForward

open Real

/-- `np.radians`: degrees to radians. -/
def npRadians (deg : ℝ) : ℝ := deg * (Real.pi / 180)

/-- `np.linspace a b n` as a function `Fin n → ℝ`.  For `n = 1` the division
by `n - 1 = 0` yields `0` in Lean, so the single sample is `a`, matching
numpy's `linspace(a, b, 1) = [a]`. -/
def npLinspace (a b : ℝ) (n : ℕ) (i : Fin n) : ℝ :=
  a + i.val * (b - a) / (n - 1)

/-- Embedding of `TerrafInv.forward_magnetic_sphere` (terraf_inv.py, lines
121-172) at a single observation point: the numpy version is elementwise over
the observation arrays, so one scalar evaluation per point is the faithful
pointwise model.  The magnetization components `Mx, My, Mz` are computed by
the source and never used, and are kept here as dead bindings. -/
def forward_magnetic_sphere (x_obs y_obs z_obs x_src y_src z_src radius
    susceptibility inclination declination : ℝ) : ℝ :=
  let inc_rad := npRadians inclination
  let dec_rad := npRadians declination
  let _Mx := susceptibility * Real.cos inc_rad * Real.cos dec_rad
  let _My := susceptibility * Real.cos inc_rad * Real.sin dec_rad
  let _Mz := susceptibility * Real.sin inc_rad
  let dx := x_obs - x_src
  let dy := y_obs - y_src
  let dz := z_obs - z_src
  let r := Real.sqrt (dx ^ 2 + dy ^ 2 + dz ^ 2)
  let r := max r 1.0
  let V := (4 / 3) * Real.pi * radius ^ 3
  let m := V * susceptibility
  let cos_theta := dz / r
  let mu_0 := 4 * Real.pi * 1e-7
  let factor := (mu_0 * 1e9) / (4 * Real.pi)
  factor * m * (3 * cos_theta ^ 2 - 1) / r ^ 3

/-- The floored source-observation distance used by the sphere model. -/
def flooredDistance (x_obs y_obs z_obs x_src y_src z_src : ℝ) : ℝ :=
  max (Real.sqrt ((x_obs - x_src) ^ 2 + (y_obs - y_src) ^ 2 +
    (z_obs - z_src) ^ 2)) 1.0

/-- The sphere anomaly formula exactly as the specification words it:
`(mu0*1e9/(4*pi)) * m * (3*cos^2(theta) - 1) / r^3` with `cos(theta) = dz/r`,
magnetic moment `m = (4/3)*pi*radius^3 * susceptibility`, and `r` the
source-observation distance floored at `1.0`. -/
def sphereAnomalySpec (x_obs y_obs z_obs x_src y_src z_src radius
    susceptibility : ℝ) : ℝ :=
  let r := flooredDistance x_obs y_obs z_obs x_src y_src z_src
  let m := (4 / 3) * Real.pi * radius ^ 3 * susceptibility
  ((4 * Real.pi * 1e-7) * 1e9 / (4 * Real.pi)) * m *
    (3 * ((z_obs - z_src) / r) ^ 2 - 1) / r ^ 3

/-- Embedding of `TerrafInv.forward_magnetic_prism` (terraf_inv.py, lines
174-215) at a single observation point.  `linspace(x1, x2, 3)` places the
3×3×3 point sources at the corners, edge midpoints and center of the prism;
each is modelled as the equal-volume equivalent sphere of one sub-cell. -/
def forward_magnetic_prism (x_obs y_obs z_obs x1 x2 y1 y2 z1 z2
    susceptibility inclination declination : ℝ) : ℝ :=
  let dV := ((x2 - x1) / 3) * ((y2 - y1) / 3) * ((z2 - z1) / 3)
  let r_equiv := (3 * dV / (4 * Real.pi)) ^ ((1 : ℝ) / 3)
  ∑ i : Fin 3, ∑ j : Fin 3, ∑ k : Fin 3,
    forward_magnetic_sphere x_obs y_obs z_obs
      (npLinspace x1 x2 3 i) (npLinspace y1 y2 3 j) (npLinspace z1 z2 3 k)
      r_equiv susceptibility inclination declination

/-- The claim C5 reference sum: the 3×3×3 sub-grid of point sources spanning
the prism, each an equal-volume equivalent sphere of radius
`(3*dV/(4*pi))^(1/3)` where `dV` is one twenty-seventh of the prism volume. -/
def prismSuperpositionSpec (x_obs y_obs z_obs x1 x2 y1 y2 z1 z2
    susceptibility inclination declination : ℝ) : ℝ :=
  let dV := (x2 - x1) * (y2 - y1) * (z2 - z1) / 27
  let r_equiv := (3 * dV / (4 * Real.pi)) ^ ((1 : ℝ) / 3)
  ∑ i : Fin 3, ∑ j : Fin 3, ∑ k : Fin 3,
    forward_magnetic_sphere x_obs y_obs z_obs
      (npLinspace x1 x2 3 i) (npLinspace y1 y2 3 j) (npLinspace z1 z2 3 k)
      r_equiv susceptibility inclination declination

end RealForward

noncomputable section Inversion

/-- `x_obs.min()` over a nonempty observation array. -/
def obsMin {n : ℕ} (f : Fin (n + 1) → ℝ) : ℝ :=
  Finset.univ.inf' Finset.univ_nonempty f

/-- `x_obs.max()` over a nonempty observation array. -/
def obsMax {n : ℕ} (f : Fin (n + 1) → ℝ) : ℝ :=
  Finset.univ.sup' Finset.univ_nonempty f

/-- Result record of `inversion_susceptibility_3d`: solved susceptibilities
(indexed by mesh cell), predicted data, residuals, RMS misfit and the
sensitivity matrix.  The reshape of the cell vector to `(nx, ny, nz)` is
modelled by indexing cells with `Fin nx × Fin ny × Fin nz` throughout
(numpy's C-order `reshape` inverts the C-order `flatten` of the
`indexing='ij'` meshgrid, so triple indexing is exactly the layout). -/
structure InvResult (nObs : ℕ) (Cell : Type) where
  susceptibility : Cell → ℝ
  mag_calculated : Fin nObs → ℝ
  residuals : Fin nObs → ℝ
  rms : ℝ
  G_matrix : Fin nObs → Cell → ℝ

/-- Sensitivity-matrix entry built by the assembly loop of
`inversion_susceptibility_3d` (terraf_inv.py, lines 276-296): the sphere
forward response of cell `c` at observation `i`, with observation height `0`
(`np.zeros_like(x_obs)`), unit susceptibility, and equivalent-sphere radius
`(3*cell_volume/(4*pi))^(1/3)` for `cell_volume = dx*dy*dz`.  Cell centers:
`x_cells = linspace(x_obs.min(), x_obs.max(), nx)`, likewise in `y`, and
`z_cells = linspace(z_top, z_top + nz*dz, nz)`. -/
def inversionG {n : ℕ} (x_obs y_obs : Fin (n + 1) → ℝ) (nx ny nz : ℕ)
    (dx dy dz z_top inclination declination : ℝ)
    (i : Fin (n + 1)) (c : Fin nx × Fin ny × Fin nz) : ℝ :=
  let cell_volume := dx * dy * dz
  let r_equiv := (3 * cell_volume / (4 * Real.pi)) ^ ((1 : ℝ) / 3)
  forward_magnetic_sphere (x_obs i) (y_obs i) 0
    (npLinspace (obsMin x_obs) (obsMax x_obs) nx c.1)
    (npLinspace (obsMin y_obs) (obsMax y_obs) ny c.2.1)
    (npLinspace z_top (z_top + nz * dz) nz c.2.2)
    r_equiv 1 inclination declination

/-- Embedding of `TerrafInv.inversion_susceptibility_3d` (terraf_inv.py,
lines 221-330).  `solve` is the external dense solver `np.linalg.solve`,
passed as an oracle; the function assembles exactly the matrix
`G^T G + alpha * eye(n_cells)` and right-hand side `G^T d` that the source
hands to it, then forms predicted data, residuals and RMS. -/
def inversion_susceptibility_3d {n : ℕ}
    (x_obs y_obs mag_obs : Fin (n + 1) → ℝ) (nx ny nz : ℕ)
    (dx dy dz z_top : ℝ) (inclination declination alpha : ℝ)
    (solve : Matrix (Fin nx × Fin ny × Fin nz) (Fin nx × Fin ny × Fin nz) ℝ →
      ((Fin nx × Fin ny × Fin nz) → ℝ) → ((Fin nx × Fin ny × Fin nz) → ℝ)) :
    InvResult (n + 1) (Fin nx × Fin ny × Fin nz) :=
  let G := inversionG x_obs y_obs nx ny nz dx dy dz z_top
    inclination declination
  let GTG : Matrix (Fin nx × Fin ny × Fin nz) (Fin nx × Fin ny × Fin nz) ℝ :=
    Matrix.of fun c c' => ∑ i, G i c * G i c'
  let GTd := fun c => ∑ i, G i c * mag_obs i
  let L : Matrix (Fin nx × Fin ny × Fin nz) (Fin nx × Fin ny × Fin nz) ℝ :=
    Matrix.of fun c c' => if c = c' then 1 else 0
  let A_reg := Matrix.of fun c c' => GTG c c' + alpha * L c c'
  let susceptibility := solve A_reg GTd
  let mag_calc := fun i => ∑ c, G i c * susceptibility c
  let residuales := fun i => mag_obs i - mag_calc i
  let rms := Real.sqrt ((∑ i, residuales i ^ 2) / (n + 1))
  ⟨susceptibility, mag_calc, residuales, rms, G⟩

/-- The regularized inversion as the specification words it: the sensitivity
matrix `G` has column `j` equal to the sphere forward response for unit
susceptibility of the equivalent sphere of the cell volume `dx*dy*dz`
(radius `(3*V/(4*pi))^(1/3)`), centered at the cell center, observations at
`z = 0`; the model solves the damped normal equations
`(G^T G + alpha*I) m = G^T d` with the identity as regularization operator,
and returns predicted data `G*m`, residuals `d - G*m`, and RMS misfit
`sqrt(mean(residuals^2))`. -/
def inversionSpec {n : ℕ}
    (x_obs y_obs mag_obs : Fin (n + 1) → ℝ) (nx ny nz : ℕ)
    (dx dy dz z_top : ℝ) (inclination declination alpha : ℝ)
    (solve : Matrix (Fin nx × Fin ny × Fin nz) (Fin nx × Fin ny × Fin nz) ℝ →
      ((Fin nx × Fin ny × Fin nz) → ℝ) → ((Fin nx × Fin ny × Fin nz) → ℝ)) :
    InvResult (n + 1) (Fin nx × Fin ny × Fin nz) :=
  let Gm : Matrix (Fin (n + 1)) (Fin nx × Fin ny × Fin nz) ℝ :=
    Matrix.of fun i c =>
      forward_magnetic_sphere (x_obs i) (y_obs i) 0
        (npLinspace (obsMin x_obs) (obsMax x_obs) nx c.1)
        (npLinspace (obsMin y_obs) (obsMax y_obs) ny c.2.1)
        (npLinspace z_top (z_top + nz * dz) nz c.2.2)
        ((3 * (dx * dy * dz) / (4 * Real.pi)) ^ ((1 : ℝ) / 3)) 1
        inclination declination
  let A := Gm.transpose * Gm + alpha • (1 : Matrix _ _ ℝ)
  let m := solve A (Gm.transpose.mulVec mag_obs)
  let predicted := Gm.mulVec m
  let res := fun i => mag_obs i - predicted i
  let rms := Real.sqrt ((∑ i, res i ^ 2) / (n + 1))
  ⟨m, predicted, res, rms, fun i c => Gm i c⟩

end Inversion

section Euler

/-- A float sample: `some q` is a finite value, `none` is NaN (or an
otherwise invalid entry). -/
abbrev Val := Option ℚ

/-- Python slice `arr[i:j]` for `0 ≤ i ≤ j`, clamped to the array length. -/
def pySlice (l : List Val) (i j : ℕ) : List Val := (l.drop i).take (j - i)

/-- Reads the float values off a window that has already passed the
`np.isnan` check (every entry is `some`); the default `0` is never hit. -/
def floats (l : List Val) : List ℚ := l.map (fun v => v.getD 0)

/-- One row of the Euler solution table produced by `euler_deconvolution`. -/
structure EulerSol where
  x0 : ℚ
  y0 : ℚ
  z0 : ℚ
  base_level : ℚ
  residual : ℚ
  n_points : ℕ
deriving DecidableEq

/-- Oracle type for `np.linalg.lstsq`: takes the rows of the design matrix
`A` (quadruples) and the data vector `b`, returns the least-squares solution
`(x0, y0, z0, base)`. -/
abbrev Lstsq := List (ℚ × ℚ × ℚ × ℚ) → List ℚ → ℚ × ℚ × ℚ × ℚ

/-- Oracle type for the float square root used by `np.linalg.norm`. -/
abbrev SqrtO := ℚ → ℚ

/-- Per-window body of `euler_deconvolution` (terraf_inv.py, lines 66-104)
after slicing: skip the window (`none`) if any of the six slices holds a
NaN; otherwise build `A = [dT/dx, dT/dy, dT/dz, -N]` and
`b = x*dT/dx + y*dT/dy + 0*dT/dz`, solve by least squares, keep the
solution only if `0 < z0 < 5000`, recording `residual = ‖A·sol − b‖` and
the window point count `len(x_w)`. -/
def eulerWindowCore (lstsq : Lstsq) (sqrtO : SqrtO) (N : ℚ)
    (xw yw Tw dxw dyw dzw : List Val) : Option EulerSol :=
  if (xw ++ yw ++ Tw ++ dxw ++ dyw ++ dzw).any Option.isNone then none
  else
    let A := List.zipWith (fun a bc => (a, bc.1, bc.2, -N))
      (floats dxw) ((floats dyw).zip (floats dzw))
    let b := List.zipWith (· + ·)
      (List.zipWith (· + ·)
        (List.zipWith (· * ·) (floats xw) (floats dxw))
        (List.zipWith (· * ·) (floats yw) (floats dyw)))
      ((floats dzw).map (fun d => 0 * d))
    let sol := lstsq A b
    if 0 < sol.2.2.1 ∧ sol.2.2.1 < 5000 then
      let diffs := List.zipWith (fun row bk =>
        (row.1 * sol.1 + row.2.1 * sol.2.1 + row.2.2.1 * sol.2.2.1 +
          row.2.2.2 * sol.2.2.2) - bk) A b
      some ⟨sol.1, sol.2.1, sol.2.2.1, sol.2.2.2,
        sqrtO ((diffs.map (fun t => t ^ 2)).sum), xw.length⟩
    else none

/-- One full window step: slice the six series over `[i, min (i+ventana) n)`
(each array is sliced independently, and numpy slicing clamps to each
array's own length), then raise `np.isnan`'s ValueError if the six slices
are ragged, else run the window body. -/
def eulerWindow (lstsq : Lstsq) (sqrtO : SqrtO) (N : ℚ)
    (x y mag dxm dym dzm : List Val) (i hi : ℕ) :
    Except String (Option EulerSol) :=
  let xw := pySlice x i hi
  let yw := pySlice y i hi
  let Tw := pySlice mag i hi
  let dxw := pySlice dxm i hi
  let dyw := pySlice dym i hi
  let dzw := pySlice dzm i hi
  if yw.length = xw.length ∧ Tw.length = xw.length ∧
      dxw.length = xw.length ∧ dyw.length = xw.length ∧
      dzw.length = xw.length then
    Except.ok (eulerWindowCore lstsq sqrtO N xw yw Tw dxw dyw dzw)
  else
    Except.error "setting an array element with a sequence"

/-- Window start positions of the loop
`for i in range(0, n - ventana, ventana // 2)`: the multiples of
`ventana / 2` below `n - ventana` (both in truncated ℕ arithmetic). -/
def eulerStarts (n ventana : ℕ) : List ℕ :=
  let step := ventana / 2
  let stop := n - ventana
  (List.range ((stop + step - 1) / step)).map (· * step)

/-- Folds the window steps in order, collecting accepted solutions and
propagating a raised error (which discards all earlier solutions, as an
uncaught Python exception would). -/
def eulerCollect (lstsq : Lstsq) (sqrtO : SqrtO) (N : ℚ)
    (x y mag dxm dym dzm : List Val) (ventana : ℕ) :
    List ℕ → Except String (List EulerSol)
  | [] => Except.ok []
  | i :: rest => do
    let r ← eulerWindow lstsq sqrtO N x y mag dxm dym dzm i
      (min (i + ventana) x.length)
    let rs ← eulerCollect lstsq sqrtO N x y mag dxm dym dzm ventana rest
    match r with
    | some s => pure (s :: rs)
    | none => pure rs

/-- Embedding of `TerrafInv.euler_deconvolution` (terraf_inv.py, lines
36-119).  `range` with a zero step raises, mirroring `ventana // 2 == 0`;
otherwise the sliding-window loop runs over `eulerStarts`. -/
def euler_deconvolution (lstsq : Lstsq) (sqrtO : SqrtO)
    (x y mag dxm dym dzm : List Val) (structural_index : ℚ) (ventana : ℕ) :
    Except String (List EulerSol) :=
  let n := x.length
  if ventana / 2 = 0 then
    Except.error "range() arg 3 must not be zero"
  else
    eulerCollect lstsq sqrtO structural_index x y mag dxm dym dzm ventana
      (eulerStarts n ventana)

/-- One sample of an Observation Series with its six channels (coordinates,
total field, three derivatives), as in the specification's data model. -/
structure Obs6 where
  x : Val
  y : Val
  T : Val
  dTdx : Val
  dTdy : Val
  dTdz : Val
deriving DecidableEq

/-- Pairs up the six parallel channel arrays into one Observation Series. -/
def zip6 : List Val → List Val → List Val → List Val → List Val →
    List Val → List Obs6
  | a :: as, b :: bs, c :: cs, d :: ds, e :: es, f :: fs =>
      ⟨a, b, c, d, e, f⟩ :: zip6 as bs cs ds es fs
  | _, _, _, _, _, _ => []

/-- One window of the Euler deconvolution as the specification words it:
if none of the six inputs contains a NaN in the window, solve by least
squares the system with design matrix `A = [dT/dx, dT/dy, dT/dz, -N]` and
right-hand side `b = x*dT/dx + y*dT/dy` (observation height `z` taken as
`0`), obtaining `(x0, y0, z0, base_level)`; an estimate is accepted only
for `0 < z0 < 5000` and is stored with the residual norm `‖A·sol − b‖`
and the window point count. -/
def eulerSpecWindow (lstsq : Lstsq) (sqrtO : SqrtO) (N : ℚ)
    (win : List Obs6) : Option EulerSol :=
  if win.any (fun o => o.x.isNone || o.y.isNone || o.T.isNone ||
      o.dTdx.isNone || o.dTdy.isNone || o.dTdz.isNone) then none
  else
    let A := win.map (fun o =>
      (o.dTdx.getD 0, o.dTdy.getD 0, o.dTdz.getD 0, -N))
    let b := win.map (fun o =>
      o.x.getD 0 * o.dTdx.getD 0 + o.y.getD 0 * o.dTdy.getD 0 +
        0 * o.dTdz.getD 0)
    let sol := lstsq A b
    if 0 < sol.2.2.1 ∧ sol.2.2.1 < 5000 then
      let diffs := List.zipWith (fun row bk =>
        (row.1 * sol.1 + row.2.1 * sol.2.1 + row.2.2.1 * sol.2.2.1 +
          row.2.2.2 * sol.2.2.2) - bk) A b
      some ⟨sol.1, sol.2.1, sol.2.2.1, sol.2.2.2,
        sqrtO ((diffs.map (fun t => t ^ 2)).sum), win.length⟩
    else none

/-- The Euler deconvolution as the specification words it: slide a window
of `w` samples across the Observation Series, the start positions advancing
by half the window size (50% stride overlap), and collect the accepted
per-window estimates in order. -/
def eulerSpec (lstsq : Lstsq) (sqrtO : SqrtO) (series : List Obs6) (N : ℚ)
    (w : ℕ) : List EulerSol :=
  let stride := w / 2
  let numWin := (series.length - w + stride - 1) / stride
  (List.range numWin).filterMap (fun k =>
    eulerSpecWindow lstsq sqrtO N ((series.drop (k * stride)).take w))

/-- Decidable equality of euler results, for evaluating the embedding on
concrete witness inputs. -/
instance : DecidableEq (Except String (List EulerSol)) :=
  fun a b => match a, b with
  | .error u, .error v =>
    if h : u = v then .isTrue (by rw [h]) else .isFalse (by simp [h])
  | .ok u, .ok v =>
    if h : u = v then .isTrue (by rw [h]) else .isFalse (by simp [h])
  | .error _, .ok _ => .isFalse (by simp)
  | .ok _, .error _ => .isFalse (by simp)

/-- A concrete least-squares oracle used to evaluate the embedding on
witness inputs: it returns the fixed solution `(1, 1, 100, 0)`. -/
def dummyLstsq : Lstsq := fun _ _ => (1, 1, 100, 0)

/-- A concrete stand-in for the float square root on witness inputs. -/
def qIdent : SqrtO := fun q => q

end Euler

section Normalization

/-- Embedding of `normalizar_array` with the default `metodo='minmax'`
(terraf_utils.py, lines 264-296): invalid entries (NaN/inf, modelled as
`none`) are excluded from the bound computation; if no valid entry exists
the input is returned unchanged; otherwise the array is mapped through
`(t - vmin) / (vmax - vmin)` when `vmax != vmin` and through `t * 0`
otherwise, with invalid entries propagating (NaN arithmetic). -/
def normalizar_array (arr : List Val) : List Val :=
  let arr_valido := arr.filterMap id
  match arr_valido with
  | [] => arr
  | v :: vs =>
    let vmin := vs.foldl min v
    let vmax := vs.foldl max v
    if vmax ≠ vmin then
      arr.map (Option.map (fun t => (t - vmin) / (vmax - vmin)))
    else
      arr.map (Option.map (fun t => t * 0))

end Normalization

section Residual

/-- Oracle type for the second `np.linalg.lstsq` use: design-matrix rows and
data vector in, coefficient vector out. -/
abbrev Lstsq2 := List (List ℚ) → List ℚ → List ℚ

/-- Dot product of a design row with the coefficient vector (`X_grid @
coeffs`, one output entry). -/
def dotQ (u v : List ℚ) : ℚ := (List.zipWith (· * ·) u v).sum

/-- Cell access in a 2D list-of-rows grid. -/
def cellAt {α : Type} (m : List (List α)) (i j : ℕ) : Option α :=
  m[i]?.bind (fun row => row[j]?)

/-- Design-matrix row for `grado = 1` (terraf_mag.py, lines 708-714):
columns `[ones, x, y]`. -/
def designRow1 (x y : ℚ) : List ℚ := [1, x, y]

/-- Design-matrix row for `grado = 2`: columns
`[ones, x, y, x², x·y, y²]`. -/
def designRow2 (x y : ℚ) : List ℚ := [1, x, y, x ^ 2, x * y, y ^ 2]

/-- Design-matrix row for `grado = 3`: columns
`[ones, x, y, x², x·y, y², x³, x²·y, x·y², y³]`. -/
def designRow3 (x y : ℚ) : List ℚ :=
  [1, x, y, x ^ 2, x * y, y ^ 2, x ^ 3, x ^ 2 * y, x * y ^ 2, y ^ 3]

/-- Number of grid columns (`grid_mag.shape[1]`). -/
def gridNx (grid : List (List Val)) : ℕ := (grid.headD []).length

/-- Normalized x coordinate of column `j`: `linspace(0, 1, nx)[j]`, i.e.
`j/(nx-1)` (for `nx = 1` the division by zero yields `0`, matching
`linspace(0, 1, 1) = [0]`). -/
def xNorm (grid : List (List Val)) (j : ℕ) : ℚ :=
  (j : ℚ) / ((gridNx grid : ℚ) - 1)

/-- Normalized y coordinate of row `i`: `linspace(0, 1, ny)[i]`. -/
def yNorm (grid : List (List Val)) (i : ℕ) : ℚ :=
  (i : ℚ) / ((grid.length : ℚ) - 1)

/-- The non-NaN samples `(x_valid, y_valid, z_valid)` in row-major order
(the order numpy's boolean-mask flattening produces). -/
def validSamples (grid : List (List Val)) : List (ℚ × ℚ × ℚ) :=
  (grid.enum.flatMap (fun p => p.2.enum.map (fun q => (p.1, q.1, q.2)))
    ).filterMap (fun t =>
      t.2.2.map (fun z => (xNorm grid t.2.1, yNorm grid t.1, z)))

/-- The coefficients fitted by least squares over the valid samples only
(`np.linalg.lstsq(X_matrix, z_valid)`), with the design row injected per
degree. -/
def residualCoeffs (lstsq2 : Lstsq2) (grid : List (List Val))
    (rowFn : ℚ → ℚ → List ℚ) : List ℚ :=
  lstsq2 ((validSamples grid).map (fun s => rowFn s.1 s.2.1))
    ((validSamples grid).map (fun s => s.2.2))

/-- The regional trend evaluated on every cell of the full grid
(`(X_grid @ coeffs).reshape(grid.shape)`). -/
def regionalGrid (lstsq2 : Lstsq2) (grid : List (List Val))
    (rowFn : ℚ → ℚ → List ℚ) : List (List ℚ) :=
  grid.enum.map (fun p => p.2.enum.map (fun q =>
    dotQ (rowFn (xNorm grid q.1) (yNorm grid p.1))
      (residualCoeffs lstsq2 grid rowFn)))

/-- Shared pipeline of `calcular_residual_grid` (terraf_mag.py, lines
684-778), parameterized by the per-degree design row: normalize coordinates
with `linspace(0, 1, n)`, fit the trend by least squares on the non-NaN
samples only, evaluate it on every cell, and subtract:
`residual = grid - regional` (NaN propagating). -/
def residualWith (lstsq2 : Lstsq2) (grid : List (List Val))
    (rowFn : ℚ → ℚ → List ℚ) : List (List ℚ) × List (List Val) :=
  let regional := regionalGrid lstsq2 grid rowFn
  let residual := List.zipWith
    (fun grow rrow => List.zipWith
      (fun (g : Val) (r : ℚ) => g.map (fun t => t - r)) grow rrow)
    grid regional
  (regional, residual)

/-- Embedding of `TerrafMag.calcular_residual_grid`: dispatch on the degree
with the code's explicit column lists; any other degree raises
`ValueError`. -/
def calcular_residual_grid (lstsq2 : Lstsq2) (grid : List (List Val))
    (grado : ℕ) : Option (List (List ℚ) × List (List Val)) :=
  match grado with
  | 1 => some (residualWith lstsq2 grid designRow1)
  | 2 => some (residualWith lstsq2 grid designRow2)
  | 3 => some (residualWith lstsq2 grid designRow3)
  | _ => none

/-- All monomials `x^a·y^b` with `a + b ≤ d`, listed by total degree as the
specification describes the design matrix. -/
def monomialsUpTo (d : ℕ) : List (ℕ × ℕ) :=
  (List.range (d + 1)).flatMap (fun k =>
    (List.range (k + 1)).map (fun j => (k - j, j)))

/-- A design row as the specification words it: all monomials up to the
requested degree, evaluated at the normalized coordinates. -/
def monomialRow (d : ℕ) (x y : ℚ) : List ℚ :=
  (monomialsUpTo d).map (fun p => x ^ p.1 * y ^ p.2)

/-- The regional-residual separation as the specification words it: the
same least-squares pipeline driven by the all-monomials design row. -/
def residualSpec (lstsq2 : Lstsq2) (grid : List (List Val)) (d : ℕ) :
    List (List ℚ) × List (List Val) :=
  residualWith lstsq2 grid (monomialRow d)

end Residual

section Clustering

/-- One row of the Source Cluster table returned by `clustering_fuentes`. -/
structure Cluster where
  x0 : ℚ
  y0 : ℚ
  z0 : ℚ
  n_solutions : ℕ
deriving DecidableEq

/-- Oracle type for `scipy.cluster.hierarchy.fclusterdata`: coordinates and
the distance radius in, one flat cluster label per row out. -/
abbrev Fcluster := List (ℚ × ℚ × ℚ) → ℚ → List ℕ

/-- The member rows of cluster `c`: the coordinate rows whose label equals
`c` (the boolean mask `clusters == cluster_id`). -/
def membersOf (coords : List (ℚ × ℚ × ℚ)) (labels : List ℕ) (c : ℕ) :
    List (ℚ × ℚ × ℚ) :=
  ((coords.zip labels).filter (fun p => p.2 == c)).map Prod.fst

/-- Embedding of `TerrafInv.clustering_fuentes` (terraf_inv.py, lines
454-484): label every row with `fclusterdata`, then for each distinct label
(in `np.unique`'s sorted order) emit the centroid — the arithmetic mean of
the member coordinates — and the member count. -/
def clustering_fuentes (fcluster : Fcluster) (sols : List (ℚ × ℚ × ℚ))
    (radio : ℚ) : List Cluster :=
  let coords := sols
  let clusters := fcluster coords radio
  (clusters.toFinset.sort (· ≤ ·)).map (fun c =>
    let members := membersOf coords clusters c
    { x0 := (members.map (fun m => m.1)).sum / (members.length : ℚ),
      y0 := (members.map (fun m => m.2.1)).sum / (members.length : ℚ),
      z0 := (members.map (fun m => m.2.2)).sum / (members.length : ℚ),
      n_solutions := members.length })

/-- A concrete clustering oracle for witness inputs: everything in one
cluster labelled 1. -/
def dummyFcluster : Fcluster := fun coords _ => coords.map (fun _ => 1)

end Clustering

section EulerLemmas

/-- Length of the zipped Observation Series when the six channels agree. -/
theorem zip6_length (a b c d e f : List Val) (hb : b.length = a.length)
    (hc : c.length = a.length) (hd : d.length = a.length)
    (he : e.length = a.length) (hf : f.length = a.length) :
    (zip6 a b c d e f).length = a.length := by
  induction a generalizing b c d e f with
  | nil =>
    cases b <;> cases c <;> cases d <;> cases e <;> cases f <;> simp [zip6]
  | cons ha ta ih =>
    cases b with
    | nil => simp at hb
    | cons hb' tb =>
      cases c with
      | nil => simp at hc
      | cons hc' tc =>
        cases d with
        | nil => simp at hd
        | cons hd' td =>
          cases e with
          | nil => simp at he
          | cons he' te =>
            cases f with
            | nil => simp at hf
            | cons hf' tf =>
              simp only [zip6, List.length_cons] at *
              exact congrArg Nat.succ
                (ih tb tc td te tf (by omega) (by omega) (by omega)
                  (by omega) (by omega))

/-- `drop` distributes over `zip6`. -/
theorem zip6_drop (i : ℕ) (a b c d e f : List Val) :
    (zip6 a b c d e f).drop i =
      zip6 (a.drop i) (b.drop i) (c.drop i) (d.drop i) (e.drop i)
        (f.drop i) := by
  induction i generalizing a b c d e f with
  | zero => simp
  | succ i ih =>
    cases a <;> cases b <;> cases c <;> cases d <;> cases e <;> cases f <;>
      simp [zip6, ih]

/-- `take` distributes over `zip6`. -/
theorem zip6_take (j : ℕ) (a b c d e f : List Val) :
    (zip6 a b c d e f).take j =
      zip6 (a.take j) (b.take j) (c.take j) (d.take j) (e.take j)
        (f.take j) := by
  induction j generalizing a b c d e f with
  | zero => simp [zip6]
  | succ j ih =>
    cases a <;> cases b <;> cases c <;> cases d <;> cases e <;> cases f <;>
      simp [zip6, ih]

/-- The `np.isnan` window check of the code (one `any` over the six
concatenated slices) agrees with the per-sample check over the zipped
series. -/
theorem zip6_any_none (a b c d e f : List Val) (hb : b.length = a.length)
    (hc : c.length = a.length) (hd : d.length = a.length)
    (he : e.length = a.length) (hf : f.length = a.length) :
    (zip6 a b c d e f).any (fun o => o.x.isNone || o.y.isNone ||
        o.T.isNone || o.dTdx.isNone || o.dTdy.isNone || o.dTdz.isNone) =
      (a ++ b ++ c ++ d ++ e ++ f).any Option.isNone := by
  induction a generalizing b c d e f with
  | nil =>
    have hb' : b = [] := List.eq_nil_of_length_eq_zero hb
    have hc' : c = [] := List.eq_nil_of_length_eq_zero hc
    have hd' : d = [] := List.eq_nil_of_length_eq_zero hd
    have he' : e = [] := List.eq_nil_of_length_eq_zero he
    have hf' : f = [] := List.eq_nil_of_length_eq_zero hf
    subst hb' hc' hd' he' hf'
    simp [zip6]
  | cons ha ta ih =>
    cases b with
    | nil => simp at hb
    | cons hb' tb =>
      cases c with
      | nil => simp at hc
      | cons hc' tc =>
        cases d with
        | nil => simp at hd
        | cons hd' td =>
          cases e with
          | nil => simp at he
          | cons he' te =>
            cases f with
            | nil => simp at hf
            | cons hf' tf =>
              simp only [List.length_cons, Nat.succ.injEq] at hb hc hd he hf
              simp only [zip6, List.any_cons, List.any_append,
                ih tb tc td te tf hb hc hd he hf, List.any_append]
              cases ha.isNone <;> cases hb'.isNone <;> cases hc'.isNone <;>
                cases hd'.isNone <;> cases he'.isNone <;>
                cases hf'.isNone <;> simp

/-- Unfolding equation for `floats` on a cons cell. -/
theorem floats_cons (v : Val) (l : List Val) :
    floats (v :: l) = v.getD 0 :: floats l := rfl

/-- The design matrix built column-wise by the code equals the row-wise map
over the zipped series. -/
theorem zip6_design (N : ℚ) (a b c d e f : List Val)
    (hb : b.length = a.length) (hc : c.length = a.length)
    (hd : d.length = a.length) (he : e.length = a.length)
    (hf : f.length = a.length) :
    List.zipWith (fun p bc => (p, bc.1, bc.2, -N))
        (floats d) ((floats e).zip (floats f)) =
      (zip6 a b c d e f).map (fun o =>
        (o.dTdx.getD 0, o.dTdy.getD 0, o.dTdz.getD 0, -N)) := by
  induction a generalizing b c d e f with
  | nil =>
    have hd' : d = [] := List.eq_nil_of_length_eq_zero hd
    have he' : e = [] := List.eq_nil_of_length_eq_zero he
    have hf' : f = [] := List.eq_nil_of_length_eq_zero hf
    subst hd' he' hf'
    cases b <;> cases c <;> simp [zip6, floats]
  | cons ha ta ih =>
    cases b with
    | nil => simp at hb
    | cons hb' tb =>
      cases c with
      | nil => simp at hc
      | cons hc' tc =>
        cases d with
        | nil => simp at hd
        | cons hd' td =>
          cases e with
          | nil => simp at he
          | cons he' te =>
            cases f with
            | nil => simp at hf
            | cons hf' tf =>
              simp only [List.length_cons, Nat.succ.injEq] at hb hc hd he hf
              simp only [zip6, floats_cons, List.zip_cons_cons,
                List.zipWith_cons_cons, List.map_cons, List.cons.injEq]
              exact ⟨trivial, ih tb tc td te tf hb hc hd he hf⟩

/-- The target vector built column-wise by the code equals the row-wise map
over the zipped series. -/
theorem zip6_target (a b c d e f : List Val)
    (hb : b.length = a.length) (hc : c.length = a.length)
    (hd : d.length = a.length) (he : e.length = a.length)
    (hf : f.length = a.length) :
    List.zipWith (· + ·)
        (List.zipWith (· + ·)
          (List.zipWith (· * ·) (floats a) (floats d))
          (List.zipWith (· * ·) (floats b) (floats e)))
        ((floats f).map (fun v => 0 * v)) =
      (zip6 a b c d e f).map (fun o =>
        o.x.getD 0 * o.dTdx.getD 0 + o.y.getD 0 * o.dTdy.getD 0 +
          0 * o.dTdz.getD 0) := by
  induction a generalizing b c d e f with
  | nil =>
    cases b <;> cases c <;> cases d <;> cases e <;> cases f <;>
      simp [zip6, floats]
  | cons ha ta ih =>
    cases b with
    | nil => simp at hb
    | cons hb' tb =>
      cases c with
      | nil => simp at hc
      | cons hc' tc =>
        cases d with
        | nil => simp at hd
        | cons hd' td =>
          cases e with
          | nil => simp at he
          | cons he' te =>
            cases f with
            | nil => simp at hf
            | cons hf' tf =>
              simp only [List.length_cons, Nat.succ.injEq] at hb hc hd he hf
              simp only [zip6, floats_cons, List.zip_cons_cons,
                List.zipWith_cons_cons, List.map_cons, List.cons.injEq]
              exact ⟨trivial, ih tb tc td te tf hb hc hd he hf⟩

/-- Window-body correspondence: on six equal-length slices the code's window
body computes exactly the specification's per-window result on the zipped
series. -/
theorem windowCore_eq_spec (lstsq : Lstsq) (sqrtO : SqrtO) (N : ℚ)
    (a b c d e f : List Val) (hb : b.length = a.length)
    (hc : c.length = a.length) (hd : d.length = a.length)
    (he : e.length = a.length) (hf : f.length = a.length) :
    eulerWindowCore lstsq sqrtO N a b c d e f =
      eulerSpecWindow lstsq sqrtO N (zip6 a b c d e f) := by
  simp only [eulerWindowCore, eulerSpecWindow]
  rw [zip6_any_none a b c d e f hb hc hd he hf,
    ← zip6_design N a b c d e f hb hc hd he hf,
    ← zip6_target a b c d e f hb hc hd he hf,
    zip6_length a b c d e f hb hc hd he hf]

/-- A numpy slice `arr[i : min(i+w, n)]` where `n = arr.length` is just the
clamped window `take w (drop i arr)`. -/
theorem pySlice_window (x : List Val) (i w n : ℕ) (hn : x.length = n) :
    pySlice x i (min (i + w) n) = (x.drop i).take w := by
  subst hn
  unfold pySlice
  rw [List.take_eq_take]
  simp only [List.length_drop]
  omega

/-- On equal-length inputs every window step returns (no window is ragged),
and the collected solution list is the in-order `filterMap` of the window
body over the start positions. -/
theorem eulerCollect_ok (lstsq : Lstsq) (sqrtO : SqrtO) (N : ℚ)
    (x y mag dxm dym dzm : List Val) (w : ℕ)
    (hy : y.length = x.length) (hT : mag.length = x.length)
    (hdx : dxm.length = x.length) (hdy : dym.length = x.length)
    (hdz : dzm.length = x.length) (is : List ℕ) :
    eulerCollect lstsq sqrtO N x y mag dxm dym dzm w is =
      Except.ok (is.filterMap (fun i => eulerWindowCore lstsq sqrtO N
        ((x.drop i).take w) ((y.drop i).take w) ((mag.drop i).take w)
        ((dxm.drop i).take w) ((dym.drop i).take w)
        ((dzm.drop i).take w))) := by
  induction is with
  | nil => rfl
  | cons i rest ih =>
    have hwin : eulerWindow lstsq sqrtO N x y mag dxm dym dzm i
        (min (i + w) x.length) =
        Except.ok (eulerWindowCore lstsq sqrtO N
          ((x.drop i).take w) ((y.drop i).take w) ((mag.drop i).take w)
          ((dxm.drop i).take w) ((dym.drop i).take w)
          ((dzm.drop i).take w)) := by
      unfold eulerWindow
      rw [pySlice_window x i w x.length rfl,
        pySlice_window y i w x.length hy,
        pySlice_window mag i w x.length hT,
        pySlice_window dxm i w x.length hdx,
        pySlice_window dym i w x.length hdy,
        pySlice_window dzm i w x.length hdz]
      simp [List.length_take, List.length_drop, hy, hT, hdx, hdy, hdz]
    simp only [eulerCollect, hwin, ih, Bind.bind, Except.bind,
      List.filterMap_cons]
    cases eulerWindowCore lstsq sqrtO N ((x.drop i).take w)
        ((y.drop i).take w) ((mag.drop i).take w) ((dxm.drop i).take w)
        ((dym.drop i).take w) ((dzm.drop i).take w) <;>
      simp [pure, Except.pure]

/-- A window body only ever emits estimates that passed the depth filter. -/
theorem windowCore_z0 (lstsq : Lstsq) (sqrtO : SqrtO) (N : ℚ)
    (a b c d e f : List Val) (s : EulerSol)
    (h : eulerWindowCore lstsq sqrtO N a b c d e f = some s) :
    0 < s.z0 ∧ s.z0 < 5000 := by
  simp only [eulerWindowCore] at h
  split at h
  · exact absurd h (by simp)
  · split at h
    · rename_i hz
      injection h with h
      subst h
      exact hz
    · exact absurd h (by simp)

/-- A full window step only ever emits estimates that passed the depth
filter. -/
theorem eulerWindow_z0 (lstsq : Lstsq) (sqrtO : SqrtO) (N : ℚ)
    (x y mag dxm dym dzm : List Val) (i hi : ℕ) (s : EulerSol)
    (h : eulerWindow lstsq sqrtO N x y mag dxm dym dzm i hi =
      Except.ok (some s)) : 0 < s.z0 ∧ s.z0 < 5000 := by
  simp only [eulerWindow] at h
  split at h
  · injection h with h
    exact windowCore_z0 lstsq sqrtO N _ _ _ _ _ _ s h
  · exact absurd h (by simp)

/-- Every estimate collected by the window loop passed the depth filter. -/
theorem eulerCollect_z0 (lstsq : Lstsq) (sqrtO : SqrtO) (N : ℚ)
    (x y mag dxm dym dzm : List Val) (w : ℕ) (is : List ℕ)
    (sols : List EulerSol)
    (h : eulerCollect lstsq sqrtO N x y mag dxm dym dzm w is =
      Except.ok sols) :
    ∀ s ∈ sols, 0 < s.z0 ∧ s.z0 < 5000 := by
  induction is generalizing sols with
  | nil =>
    simp only [eulerCollect] at h
    injection h with h
    subst h
    intro s hs
    cases hs
  | cons i rest ih =>
    simp only [eulerCollect, Bind.bind, Except.bind] at h
    cases hwin : eulerWindow lstsq sqrtO N x y mag dxm dym dzm i
        (min (i + w) x.length) with
    | error e => rw [hwin] at h; exact absurd h (by simp)
    | ok r =>
      rw [hwin] at h
      cases hrest : eulerCollect lstsq sqrtO N x y mag dxm dym dzm w
          rest with
      | error e => rw [hrest] at h; exact absurd h (by simp)
      | ok rs =>
        rw [hrest] at h
        cases r with
        | none =>
          simp only [pure, Except.pure] at h
          injection h with h
          subst h
          exact ih rs hrest
        | some s0 =>
          simp only [pure, Except.pure] at h
          injection h with h
          subst h
          intro s hs
          cases hs with
          | head =>
            exact eulerWindow_z0 lstsq sqrtO N x y mag dxm dym dzm i
              (min (i + w) x.length) s0 hwin
          | tail _ hs => exact ih rs hrest s hs

end EulerLemmas

/-- C2: every row of the Euler solution table satisfies `0 < z0 < 5000`:
a window solution whose `z0` falls outside this open interval is discarded
and never appears in the output, for every input series, structural index,
window size and solver oracle. -/
theorem C2_depth_filter_invariant (lstsq : Lstsq) (sqrtO : SqrtO)
    (x y mag dxm dym dzm : List Val) (N : ℚ) (w : ℕ)
    (sols : List EulerSol)
    (h : euler_deconvolution lstsq sqrtO x y mag dxm dym dzm N w =
      Except.ok sols) :
    ∀ s ∈ sols, 0 < s.z0 ∧ s.z0 < 5000 := by
  unfold euler_deconvolution at h
  split at h
  · exact absurd h (by simp)
  · exact eulerCollect_z0 lstsq sqrtO N x y mag dxm dym dzm w _ sols h

/-- Witness for C2: on a concrete run producing one estimate (depth 100),
the invariant holds for that row. -/
theorem C2_depth_filter_invariant_witness :
    euler_deconvolution dummyLstsq qIdent
      [some 0, some 1, some 2] [some 0, some 1, some 2]
      [some 5, some 5, some 5] [some 1, some 1, some 1]
      [some 1, some 1, some 1] [some 1, some 1, some 1] 1 2 =
      Except.ok [⟨1, 1, 100, 0, 20404, 2⟩] ∧
    (0 < (⟨1, 1, 100, 0, 20404, 2⟩ : EulerSol).z0 ∧
      (⟨1, 1, 100, 0, 20404, 2⟩ : EulerSol).z0 < 5000) :=
  ⟨by
    simp [euler_deconvolution, eulerStarts, eulerCollect, eulerWindow,
      eulerWindowCore, pySlice, floats, dummyLstsq, qIdent, Bind.bind,
      Except.bind, pure, Except.pure, List.range_succ]
    norm_num,
    C2_depth_filter_invariant dummyLstsq qIdent
      [some 0, some 1, some 2] [some 0, some 1, some 2]
      [some 5, some 5, some 5] [some 1, some 1, some 1]
      [some 1, some 1, some 1] [some 1, some 1, some 1] 1 2
      [⟨1, 1, 100, 0, 20404, 2⟩]
      (by
        simp [euler_deconvolution, eulerStarts, eulerCollect, eulerWindow,
          eulerWindowCore, pySlice, floats, dummyLstsq, qIdent, Bind.bind,
          Except.bind, pure, Except.pure, List.range_succ]
        norm_num)
      ⟨1, 1, 100, 0, 20404, 2⟩ (List.mem_singleton.mpr rfl)⟩

/-- C1: for every input series (six equal-length channels) and window size
at least 2, the Euler deconvolution slides a window of `ventana` samples
with start positions advancing by half the window size; every window free
of NaN in all six inputs is solved by least squares with design matrix
`A = [dT/dx, dT/dy, dT/dz, -N]` and right-hand side
`b = x*dT/dx + y*dT/dy` (observation height `z = 0`), producing
`(x0, y0, z0, base_level)`, and each accepted estimate is stored with the
residual norm `‖A·sol − b‖` and the window point count — i.e. the code
computes exactly the per-window specification `eulerSpec` over the zipped
Observation Series. -/
theorem C1_euler_sliding_window (lstsq : Lstsq) (sqrtO : SqrtO)
    (x y mag dxm dym dzm : List Val) (N : ℚ) (w : ℕ) (hw : 2 ≤ w)
    (hy : y.length = x.length) (hT : mag.length = x.length)
    (hdx : dxm.length = x.length) (hdy : dym.length = x.length)
    (hdz : dzm.length = x.length) :
    euler_deconvolution lstsq sqrtO x y mag dxm dym dzm N w =
      Except.ok (eulerSpec lstsq sqrtO (zip6 x y mag dxm dym dzm) N w) := by
  unfold euler_deconvolution
  have hstep : ¬ (w / 2 = 0) := by omega
  rw [if_neg hstep]
  rw [eulerCollect_ok lstsq sqrtO N x y mag dxm dym dzm w hy hT hdx hdy hdz]
  simp only [eulerSpec, eulerStarts]
  rw [zip6_length x y mag dxm dym dzm hy hT hdx hdy hdz]
  rw [List.filterMap_map]
  refine congrArg Except.ok (List.filterMap_congr ?_)
  intro k _
  simp only [Function.comp_apply]
  rw [zip6_drop, zip6_take]
  exact windowCore_eq_spec lstsq sqrtO N _ _ _ _ _ _
    (by simp [hy]) (by simp [hT]) (by simp [hdx]) (by simp [hdy])
    (by simp [hdz])

/-- Witness for C1: a concrete three-sample series with window size 2,
evaluated with the concrete oracles. -/
theorem C1_euler_sliding_window_witness :
    (2 ≤ 2 ∧
      ([some 0, some 1, some 2] : List Val).length =
        ([some 0, some 1, some 2] : List Val).length) ∧
    euler_deconvolution dummyLstsq qIdent
      [some 0, some 1, some 2] [some 0, some 1, some 2]
      [some 5, some 5, some 5] [some 1, some 1, some 1]
      [some 1, some 1, some 1] [some 1, some 1, some 1] 1 2 =
      Except.ok (eulerSpec dummyLstsq qIdent
        (zip6 [some 0, some 1, some 2] [some 0, some 1, some 2]
          [some 5, some 5, some 5] [some 1, some 1, some 1]
          [some 1, some 1, some 1] [some 1, some 1, some 1]) 1 2) :=
  ⟨⟨le_refl 2, rfl⟩,
    C1_euler_sliding_window dummyLstsq qIdent
      [some 0, some 1, some 2] [some 0, some 1, some 2]
      [some 5, some 5, some 5] [some 1, some 1, some 1]
      [some 1, some 1, some 1] [some 1, some 1, some 1] 1 2
      (le_refl 2) rfl rfl rfl rfl rfl⟩

/-- `foldl min` is a lower bound for the seed and every element. -/
theorem foldl_min_le (v : ℚ) (vs : List ℚ) :
    ∀ a ∈ v :: vs, vs.foldl min v ≤ a := by
  induction vs generalizing v with
  | nil =>
    intro a ha
    simp only [List.mem_singleton] at ha
    simp [ha]
  | cons w ws ih =>
    intro a ha
    simp only [List.foldl_cons]
    rcases List.mem_cons.mp ha with h | h
    · subst h
      exact le_trans (ih (min a w) (min a w) (List.mem_cons_self _ _))
        (min_le_left a w)
    · rcases List.mem_cons.mp h with h' | h'
      · subst h'
        exact le_trans (ih (min v a) (min v a) (List.mem_cons_self _ _))
          (min_le_right v a)
      · exact ih (min v w) a (List.mem_cons_of_mem _ h')

/-- `foldl min` over a nonempty list is attained at some element. -/
theorem foldl_min_mem (v : ℚ) (vs : List ℚ) :
    vs.foldl min v ∈ v :: vs := by
  induction vs generalizing v with
  | nil => simp
  | cons w ws ih =>
    simp only [List.foldl_cons]
    rcases List.mem_cons.mp (ih (min v w)) with h' | h'
    · rcases min_choice v w with hm | hm <;> simp [h'.trans hm]
    · exact List.mem_cons_of_mem _ (List.mem_cons_of_mem _ h')

/-- `foldl max` is an upper bound for the seed and every element. -/
theorem le_foldl_max (v : ℚ) (vs : List ℚ) :
    ∀ a ∈ v :: vs, a ≤ vs.foldl max v := by
  induction vs generalizing v with
  | nil =>
    intro a ha
    simp only [List.mem_singleton] at ha
    simp [ha]
  | cons w ws ih =>
    intro a ha
    simp only [List.foldl_cons]
    rcases List.mem_cons.mp ha with h | h
    · subst h
      exact le_trans (le_max_left a w)
        (ih (max a w) (max a w) (List.mem_cons_self _ _))
    · rcases List.mem_cons.mp h with h' | h'
      · subst h'
        exact le_trans (le_max_right v a)
          (ih (max v a) (max v a) (List.mem_cons_self _ _))
      · exact ih (max v w) a (List.mem_cons_of_mem _ h')

/-- `foldl max` over a nonempty list is attained at some element. -/
theorem foldl_max_mem (v : ℚ) (vs : List ℚ) :
    vs.foldl max v ∈ v :: vs := by
  induction vs generalizing v with
  | nil => simp
  | cons w ws ih =>
    simp only [List.foldl_cons]
    rcases List.mem_cons.mp (ih (max v w)) with h' | h'
    · rcases max_choice v w with hm | hm <;> simp [h'.trans hm]
    · exact List.mem_cons_of_mem _ (List.mem_cons_of_mem _ h')

/-- C8: for every input grid with at least two distinct finite values, the
min-max normalization returns a grid of the same shape whose NaN entries
are exactly the input's NaN entries, whose finite entries all lie in
`[0, 1]`, and whose finite entries attain both `0` and `1` (so the minimum
over non-NaN entries is 0 and the maximum is 1). -/
theorem C8_minmax_normalization (arr : List Val)
    (h : ∃ a b : ℚ, some a ∈ arr ∧ some b ∈ arr ∧ a ≠ b) :
    (normalizar_array arr).length = arr.length ∧
    (∀ k : ℕ, (normalizar_array arr)[k]? = some none ↔
      arr[k]? = some none) ∧
    some (0 : ℚ) ∈ normalizar_array arr ∧
    some (1 : ℚ) ∈ normalizar_array arr ∧
    (∀ q : ℚ, some q ∈ normalizar_array arr → 0 ≤ q ∧ q ≤ 1) := by
  obtain ⟨a, b, ha, hb, hab⟩ := h
  have ha' : a ∈ arr.filterMap id := by simp [ha]
  cases hv : arr.filterMap id with
  | nil => rw [hv] at ha'; cases ha'
  | cons v vs =>
    rw [hv] at ha'
    have hb' : b ∈ (v :: vs : List ℚ) := by
      rw [← hv]; simp [hb]
    set vmin := vs.foldl min v with hvmin
    set vmax := vs.foldl max v with hvmax
    have hmin_le : ∀ t ∈ (v :: vs : List ℚ), vmin ≤ t := foldl_min_le v vs
    have hle_max : ∀ t ∈ (v :: vs : List ℚ), t ≤ vmax := le_foldl_max v vs
    have hne : vmax ≠ vmin := by
      intro heq
      apply hab
      have h1 : a = vmin :=
        le_antisymm (heq ▸ hle_max a ha') (hmin_le a ha')
      have h2 : b = vmin :=
        le_antisymm (heq ▸ hle_max b hb') (hmin_le b hb')
      rw [h1, h2]
    have hlt : vmin < vmax :=
      lt_of_le_of_ne (le_trans (hmin_le v (List.mem_cons_self v vs))
        (hle_max v (List.mem_cons_self v vs))) (Ne.symm hne)
    have hd : (0 : ℚ) < vmax - vmin := sub_pos.mpr hlt
    have hout : normalizar_array arr =
        arr.map (Option.map (fun t => (t - vmin) / (vmax - vmin))) := by
      simp only [normalizar_array, hv]
      rw [if_pos hne]
    refine ⟨by rw [hout]; simp, ?_, ?_, ?_, ?_⟩
    · intro k
      rw [hout, List.getElem?_map]
      cases arr[k]? with
      | none => simp
      | some o => cases o <;> simp
    · rw [hout]
      have hm : some vmin ∈ arr := by
        have := foldl_min_mem v vs
        rw [← hvmin, ← hv] at this
        simpa using this
      have : Option.map (fun t => (t - vmin) / (vmax - vmin))
          (some vmin) ∈ arr.map
            (Option.map (fun t => (t - vmin) / (vmax - vmin))) :=
        List.mem_map_of_mem _ hm
      simpa [div_eq_zero_iff] using this
    · rw [hout]
      have hm : some vmax ∈ arr := by
        have := foldl_max_mem v vs
        rw [← hvmax, ← hv] at this
        simpa using this
      have : Option.map (fun t => (t - vmin) / (vmax - vmin))
          (some vmax) ∈ arr.map
            (Option.map (fun t => (t - vmin) / (vmax - vmin))) :=
        List.mem_map_of_mem _ hm
      simpa [div_self (ne_of_gt hd)] using this
    · intro q hq
      rw [hout] at hq
      rcases List.mem_map.mp hq with ⟨o, ho, hoq⟩
      cases o with
      | none => simp at hoq
      | some t =>
        simp only [Option.map_some', Option.some.injEq] at hoq
        have ht : t ∈ (v :: vs : List ℚ) := by
          rw [← hv]; simp [ho]
        constructor
        · rw [← hoq]
          exact div_nonneg (sub_nonneg.mpr (hmin_le t ht)) (le_of_lt hd)
        · rw [← hoq]
          rw [div_le_one hd]
          have := hle_max t ht
          linarith

/-- Witness for C8: the grid `[0, NaN, 2]` normalizes to `[0, NaN, 1]`. -/
theorem C8_minmax_normalization_witness :
    (∃ a b : ℚ, some a ∈ ([some 0, none, some 2] : List Val) ∧
      some b ∈ ([some 0, none, some 2] : List Val) ∧ a ≠ b) ∧
    ((normalizar_array [some 0, none, some 2]).length =
        ([some 0, none, some 2] : List Val).length ∧
      (∀ k : ℕ, (normalizar_array [some 0, none, some 2])[k]? =
        some none ↔ ([some 0, none, some 2] : List Val)[k]? = some none) ∧
      some (0 : ℚ) ∈ normalizar_array [some 0, none, some 2] ∧
      some (1 : ℚ) ∈ normalizar_array [some 0, none, some 2] ∧
      (∀ q : ℚ, some q ∈ normalizar_array [some 0, none, some 2] →
        0 ≤ q ∧ q ≤ 1)) :=
  ⟨⟨0, 2, by decide, by decide, by decide⟩,
    C8_minmax_normalization [some 0, none, some 2]
      ⟨0, 2, by decide, by decide, by decide⟩⟩

/-- Cell-level value of the regional grid: defined exactly at the cells of
the input grid, with value the design row at the cell's normalized
coordinates dotted with the fitted coefficients. -/
theorem cellAt_regionalGrid (lstsq2 : Lstsq2) (grid : List (List Val))
    (rowFn : ℚ → ℚ → List ℚ) (i j : ℕ) :
    cellAt (regionalGrid lstsq2 grid rowFn) i j =
      (cellAt grid i j).map (fun _ =>
        dotQ (rowFn (xNorm grid j) (yNorm grid i))
          (residualCoeffs lstsq2 grid rowFn)) := by
  unfold regionalGrid cellAt
  rw [List.getElem?_map, List.getElem?_enum]
  cases grid[i]? with
  | none => simp
  | some row =>
    simp only [Option.map_some', Option.some_bind]
    rw [List.getElem?_map, List.getElem?_enum]
    cases row[j]? with
    | none => simp
    | some v => simp

/-- Cell-level value of the residual grid: the observed cell minus the
regional value at the same cell, with `none` (NaN) propagating. -/
theorem cellAt_residualWith_snd (lstsq2 : Lstsq2) (grid : List (List Val))
    (rowFn : ℚ → ℚ → List ℚ) (i j : ℕ) :
    cellAt (residualWith lstsq2 grid rowFn).2 i j =
      (cellAt grid i j).map (fun g => g.map (fun t => t -
        dotQ (rowFn (xNorm grid j) (yNorm grid i))
          (residualCoeffs lstsq2 grid rowFn))) := by
  have hreg : ∀ i', (regionalGrid lstsq2 grid rowFn)[i']? =
      (grid[i']?).map (fun (row : List Val) => row.enum.map (fun q =>
        dotQ (rowFn (xNorm grid q.1) (yNorm grid i'))
          (residualCoeffs lstsq2 grid rowFn))) := by
    intro i'
    unfold regionalGrid
    rw [List.getElem?_map, List.getElem?_enum]
    cases grid[i']? <;> simp
  simp only [residualWith]
  unfold cellAt
  rw [List.getElem?_zipWith, hreg i]
  cases grid[i]? with
  | none => simp
  | some row =>
    simp only [Option.map_some', Option.some_bind]
    rw [List.getElem?_zipWith]
    rw [List.getElem?_map, List.getElem?_enum]
    cases row[j]? with
    | none => simp
    | some v => simp

/-- The code's degree-1 design row is the list of all monomials up to
degree 1. -/
theorem designRow1_eq_monomials : designRow1 = monomialRow 1 := by
  funext x y
  simp [designRow1, monomialRow, monomialsUpTo, List.range_succ]

/-- The code's degree-2 design row is the list of all monomials up to
degree 2. -/
theorem designRow2_eq_monomials : designRow2 = monomialRow 2 := by
  funext x y
  simp [designRow2, monomialRow, monomialsUpTo, List.range_succ]

/-- The code's degree-3 design row is the list of all monomials up to
degree 3. -/
theorem designRow3_eq_monomials : designRow3 = monomialRow 3 := by
  funext x y
  simp [designRow3, monomialRow, monomialsUpTo, List.range_succ]

/-- C9: for every 2D field grid and degree in {1,2,3}, the polynomial
regional-residual separation succeeds and equals the specification
pipeline whose design matrix holds all monomials up to the requested
degree in coordinates normalized to `[0,1]²`, fitted over the non-NaN
samples only and evaluated over the full grid; at every cell the residual
is `observed − regional`, hence NaN exactly where the observed grid is
NaN. -/
theorem C9_regional_residual (lstsq2 : Lstsq2) (grid : List (List Val))
    (d : ℕ) (hd : d = 1 ∨ d = 2 ∨ d = 3) :
    calcular_residual_grid lstsq2 grid d =
      some (residualSpec lstsq2 grid d) ∧
    (∀ i j : ℕ, ∀ g : Val, ∀ r : ℚ, cellAt grid i j = some g →
      cellAt (residualSpec lstsq2 grid d).1 i j = some r →
      cellAt (residualSpec lstsq2 grid d).2 i j =
        some (g.map (fun t => t - r))) ∧
    (∀ i j : ℕ, cellAt (residualSpec lstsq2 grid d).2 i j = some none ↔
      cellAt grid i j = some none) := by
  refine ⟨?_, ?_, ?_⟩
  · rcases hd with h | h | h <;> subst h <;>
      simp [calcular_residual_grid, residualSpec, designRow1_eq_monomials,
        designRow2_eq_monomials, designRow3_eq_monomials]
  · intro i j g r hg hr
    have h1 := cellAt_regionalGrid lstsq2 grid (monomialRow d) i j
    have h2 := cellAt_residualWith_snd lstsq2 grid (monomialRow d) i j
    have hfst : (residualSpec lstsq2 grid d).1 =
        regionalGrid lstsq2 grid (monomialRow d) := rfl
    rw [hfst, h1, hg] at hr
    simp only [Option.map_some', Option.some.injEq] at hr
    have hsnd : (residualSpec lstsq2 grid d).2 =
        (residualWith lstsq2 grid (monomialRow d)).2 := rfl
    rw [hsnd, h2, hg, hr]
    simp
  · intro i j
    have h2 := cellAt_residualWith_snd lstsq2 grid (monomialRow d) i j
    have hsnd : (residualSpec lstsq2 grid d).2 =
        (residualWith lstsq2 grid (monomialRow d)).2 := rfl
    rw [hsnd, h2]
    cases cellAt grid i j with
    | none => simp
    | some g => cases g <;> simp

/-- Witness for C9: a concrete 2×2 grid with one NaN cell at degree 1,
with a concrete coefficient oracle. -/
theorem C9_regional_residual_witness :
    ((1 : ℕ) = 1 ∨ (1 : ℕ) = 2 ∨ (1 : ℕ) = 3) ∧
    (calcular_residual_grid (fun _ _ => [1, 0, 0])
        [[some 1, some 2], [none, some 3]] 1 =
      some (residualSpec (fun _ _ => [1, 0, 0])
        [[some 1, some 2], [none, some 3]] 1) ∧
    (∀ i j : ℕ, ∀ g : Val, ∀ r : ℚ,
      cellAt ([[some 1, some 2], [none, some 3]] : List (List Val)) i j =
        some g →
      cellAt (residualSpec (fun _ _ => [1, 0, 0])
        [[some 1, some 2], [none, some 3]] 1).1 i j = some r →
      cellAt (residualSpec (fun _ _ => [1, 0, 0])
        [[some 1, some 2], [none, some 3]] 1).2 i j =
        some (g.map (fun t => t - r))) ∧
    (∀ i j : ℕ, cellAt (residualSpec (fun _ _ => [1, 0, 0])
        [[some 1, some 2], [none, some 3]] 1).2 i j = some none ↔
      cellAt ([[some 1, some 2], [none, some 3]] : List (List Val)) i j =
        some none)) :=
  ⟨Or.inl rfl,
    C9_regional_residual (fun _ _ => [1, 0, 0])
      [[some 1, some 2], [none, some 3]] 1 (Or.inl rfl)⟩

/-- When the label list matches the coordinate list in length, the member
count of cluster `c` is the number of occurrences of label `c`. -/
theorem membersOf_length (coords : List (ℚ × ℚ × ℚ)) (labels : List ℕ)
    (h : labels.length = coords.length) (c : ℕ) :
    (membersOf coords labels c).length = labels.count c := by
  unfold membersOf
  rw [List.length_map, ← List.countP_eq_length_filter]
  have hsnd : (coords.zip labels).map Prod.snd = labels :=
    List.map_snd_zip coords labels (le_of_eq h)
  calc List.countP (fun p => p.2 == c) (coords.zip labels)
      = List.countP (· == c) ((coords.zip labels).map Prod.snd) := by
        rw [List.countP_map]; rfl
    _ = labels.count c := by rw [hsnd]; rfl

/-- The occurrence counts of the distinct labels (in sorted order) sum to
the number of labelled rows. -/
theorem sorted_count_sum (labels : List ℕ) :
    ((labels.toFinset.sort (· ≤ ·)).map (fun c => labels.count c)).sum =
      labels.length := by
  have h1 : ∑ a ∈ labels.toFinset, labels.count a = labels.length := by
    have := Multiset.toFinset_sum_count_eq (labels : Multiset ℕ)
    simpa using this
  have hp : List.Perm
      ((labels.toFinset.sort (· ≤ ·)).map (fun c => labels.count c))
      (labels.toFinset.toList.map (fun c => labels.count c)) :=
    (Finset.sort_perm_toList _ labels.toFinset).map (fun c => labels.count c)
  rw [← h1, Finset.sum_eq_multiset_sum, ← Multiset.coe_toList
    labels.toFinset.val, Multiset.map_coe, Multiset.sum_coe]
  exact hp.sum_eq

/-- C10: for every non-empty Source Estimate table, clustering assigns each
estimate to exactly one cluster — the member counts of the returned Source
Cluster rows sum to the number of input estimates — and each cluster's
`(x0, y0, z0)` centroid is the arithmetic mean of its members' coordinates
(stated denominator-free: centroid times member count equals the member
coordinate sums, with a positive member count). -/
theorem C10_cluster_partition (fcluster : Fcluster)
    (sols : List (ℚ × ℚ × ℚ)) (radio : ℚ) (hne : sols ≠ [])
    (hlen : (fcluster sols radio).length = sols.length) :
    ((clustering_fuentes fcluster sols radio).map
      (fun cl => cl.n_solutions)).sum = sols.length ∧
    (∀ cl ∈ clustering_fuentes fcluster sols radio,
      0 < cl.n_solutions ∧
      ∃ c ∈ fcluster sols radio,
        cl.n_solutions =
          (membersOf sols (fcluster sols radio) c).length ∧
        cl.x0 * (cl.n_solutions : ℚ) =
          ((membersOf sols (fcluster sols radio) c).map
            (fun m => m.1)).sum ∧
        cl.y0 * (cl.n_solutions : ℚ) =
          ((membersOf sols (fcluster sols radio) c).map
            (fun m => m.2.1)).sum ∧
        cl.z0 * (cl.n_solutions : ℚ) =
          ((membersOf sols (fcluster sols radio) c).map
            (fun m => m.2.2)).sum) := by
  constructor
  · simp only [clustering_fuentes, List.map_map, Function.comp_def]
    simp only [membersOf_length sols (fcluster sols radio) hlen]
    rw [sorted_count_sum (fcluster sols radio), hlen]
  · intro cl hcl
    simp only [clustering_fuentes, List.mem_map] at hcl
    obtain ⟨c, hcs, hcl⟩ := hcl
    have hcmem : c ∈ fcluster sols radio := by
      rw [Finset.mem_sort] at hcs
      exact List.mem_toFinset.mp hcs
    have hcount : 0 < (fcluster sols radio).count c :=
      List.count_pos_iff.mpr hcmem
    have hlenm : (membersOf sols (fcluster sols radio) c).length =
        (fcluster sols radio).count c :=
      membersOf_length sols (fcluster sols radio) hlen c
    have hpos : 0 < (membersOf sols (fcluster sols radio) c).length := by
      rw [hlenm]; exact hcount
    have hcast : ((membersOf sols (fcluster sols radio) c).length : ℚ) ≠
        0 := Nat.cast_ne_zero.mpr (Nat.pos_iff_ne_zero.mp hpos)
    subst hcl
    refine ⟨hpos, c, hcmem, rfl, ?_, ?_, ?_⟩ <;>
      exact div_mul_cancel₀ _ hcast

/-- Witness for C10: two estimates both labelled into one cluster; the
centroid is their mean and the count is 2. -/
theorem C10_cluster_partition_witness :
    (([((0 : ℚ), (0 : ℚ), (5 : ℚ)), (1, 1, 7)] : List (ℚ × ℚ × ℚ)) ≠ [] ∧
      (dummyFcluster [((0 : ℚ), (0 : ℚ), (5 : ℚ)), (1, 1, 7)] 1).length =
        ([((0 : ℚ), (0 : ℚ), (5 : ℚ)), (1, 1, 7)] :
          List (ℚ × ℚ × ℚ)).length) ∧
    (((clustering_fuentes dummyFcluster
        [((0 : ℚ), (0 : ℚ), (5 : ℚ)), (1, 1, 7)] 1).map
      (fun cl => cl.n_solutions)).sum =
        ([((0 : ℚ), (0 : ℚ), (5 : ℚ)), (1, 1, 7)] :
          List (ℚ × ℚ × ℚ)).length ∧
    (∀ cl ∈ clustering_fuentes dummyFcluster
        [((0 : ℚ), (0 : ℚ), (5 : ℚ)), (1, 1, 7)] 1,
      0 < cl.n_solutions ∧
      ∃ c ∈ dummyFcluster [((0 : ℚ), (0 : ℚ), (5 : ℚ)), (1, 1, 7)] 1,
        cl.n_solutions = (membersOf [((0 : ℚ), (0 : ℚ), (5 : ℚ)), (1, 1, 7)]
          (dummyFcluster [((0 : ℚ), (0 : ℚ), (5 : ℚ)), (1, 1, 7)] 1)
          c).length ∧
        cl.x0 * (cl.n_solutions : ℚ) =
          ((membersOf [((0 : ℚ), (0 : ℚ), (5 : ℚ)), (1, 1, 7)]
            (dummyFcluster [((0 : ℚ), (0 : ℚ), (5 : ℚ)), (1, 1, 7)] 1)
            c).map (fun m => m.1)).sum ∧
        cl.y0 * (cl.n_solutions : ℚ) =
          ((membersOf [((0 : ℚ), (0 : ℚ), (5 : ℚ)), (1, 1, 7)]
            (dummyFcluster [((0 : ℚ), (0 : ℚ), (5 : ℚ)), (1, 1, 7)] 1)
            c).map (fun m => m.2.1)).sum ∧
        cl.z0 * (cl.n_solutions : ℚ) =
          ((membersOf [((0 : ℚ), (0 : ℚ), (5 : ℚ)), (1, 1, 7)]
            (dummyFcluster [((0 : ℚ), (0 : ℚ), (5 : ℚ)), (1, 1, 7)] 1)
            c).map (fun m => m.2.2)).sum)) :=
  ⟨⟨by decide, rfl⟩,
    C10_cluster_partition dummyFcluster
      [((0 : ℚ), (0 : ℚ), (5 : ℚ)), (1, 1, 7)] 1 (by decide) rfl⟩

/-- C7 counterexample: a call with mismatched observation lengths (the
magnetic series has 2 samples, the coordinate and derivative series have 3)
does not fail at call entry — it silently returns a numeric solution
table. -/
theorem C7_no_fail_fast_counterexample :
    euler_deconvolution dummyLstsq qIdent
      [some 0, some 1, some 2] [some 0, some 1, some 2]
      [some 5, some 5] [some 1, some 1, some 1]
      [some 1, some 1, some 1] [some 1, some 1, some 1] 1 2 =
      Except.ok [⟨1, 1, 100, 0, 20404, 2⟩] ∧
    ([some 5, some 5] : List Val).length ≠
      ([some 0, some 1, some 2] : List Val).length := by
  constructor
  · simp [euler_deconvolution, eulerStarts, eulerCollect, eulerWindow,
      eulerWindowCore, pySlice, floats, dummyLstsq, qIdent, Bind.bind,
      Except.bind, pure, Except.pure, List.range_succ]
    norm_num
  · decide

/-- C7 amended: the entry points perform no validation at call entry; for
`euler_deconvolution` with window size at least 2, any six equal-length
series are processed to an ordinary result table (never an entry error),
and mismatched series can also be processed silently whenever every
window's six slices happen to align. -/
theorem C7_no_entry_validation (lstsq : Lstsq) (sqrtO : SqrtO)
    (x y mag dxm dym dzm : List Val) (N : ℚ) (w : ℕ) (hw : 2 ≤ w)
    (hy : y.length = x.length) (hT : mag.length = x.length)
    (hdx : dxm.length = x.length) (hdy : dym.length = x.length)
    (hdz : dzm.length = x.length) :
    ∃ sols, euler_deconvolution lstsq sqrtO x y mag dxm dym dzm N w =
      Except.ok sols := by
  unfold euler_deconvolution
  rw [if_neg (by omega : ¬ (w / 2 = 0))]
  exact ⟨_, eulerCollect_ok lstsq sqrtO N x y mag dxm dym dzm w hy hT hdx
    hdy hdz (eulerStarts x.length w)⟩

/-- Witness for the amended C7 theorem at a concrete equal-length input. -/
theorem C7_no_entry_validation_witness :
    (2 ≤ 2 ∧
      ([some 5, some 5, some 5] : List Val).length =
        ([some 0, some 1, some 2] : List Val).length) ∧
    ∃ sols, euler_deconvolution dummyLstsq qIdent
      [some 0, some 1, some 2] [some 0, some 1, some 2]
      [some 5, some 5, some 5] [some 1, some 1, some 1]
      [some 1, some 1, some 1] [some 1, some 1, some 1] 1 2 =
      Except.ok sols :=
  ⟨⟨le_refl 2, rfl⟩,
    C7_no_entry_validation dummyLstsq qIdent
      [some 0, some 1, some 2] [some 0, some 1, some 2]
      [some 5, some 5, some 5] [some 1, some 1, some 1]
      [some 1, some 1, some 1] [some 1, some 1, some 1] 1 2
      (le_refl 2) rfl rfl rfl rfl rfl⟩

/-- C3: the regularized susceptibility inversion computes, for every cell,
the sensitivity column as the unit-susceptibility sphere response of the
equivalent sphere of the cell volume `dx*dy*dz` (radius `(3*V/(4*pi))^(1/3)`)
at the cell center, with observations at `z = 0`; it solves the damped
normal equations `(G^T G + alpha*I) m = G^T d` with the identity as
regularization operator, and returns predicted data `G*m`, residuals
`d - G*m`, and RMS misfit `sqrt(mean(residuals^2))` — for every observation
set, mesh, field direction, damping parameter and solver oracle. -/
theorem C3_inversion_normal_equations {n : ℕ}
    (x_obs y_obs mag_obs : Fin (n + 1) → ℝ) (nx ny nz : ℕ)
    (dx dy dz z_top : ℝ) (inclination declination alpha : ℝ)
    (solve : Matrix (Fin nx × Fin ny × Fin nz) (Fin nx × Fin ny × Fin nz) ℝ →
      ((Fin nx × Fin ny × Fin nz) → ℝ) → ((Fin nx × Fin ny × Fin nz) → ℝ)) :
    inversion_susceptibility_3d x_obs y_obs mag_obs nx ny nz dx dy dz z_top
      inclination declination alpha solve =
    inversionSpec x_obs y_obs mag_obs nx ny nz dx dy dz z_top
      inclination declination alpha solve := by
  rfl

/-- C4: for every observation point and sphere source, the sphere forward
response floors the source-to-observation distance at `1.0` (so the floored
distance is at least `1`), and returns
`(mu0*1e9/(4*pi)) * m * (3*cos^2(theta) - 1) / r^3` with `cos(theta) = dz/r`
and magnetic moment `m = (4/3)*pi*radius^3 * susceptibility`; the divisions
are by a quantity bounded below by `1`, hence the result is a well-defined
real number for every input, including an observation at the source center. -/
theorem C4_sphere_formula (x_obs y_obs z_obs x_src y_src z_src radius
    susceptibility inclination declination : ℝ) :
    forward_magnetic_sphere x_obs y_obs z_obs x_src y_src z_src radius
      susceptibility inclination declination =
      sphereAnomalySpec x_obs y_obs z_obs x_src y_src z_src radius
        susceptibility ∧
    (1 : ℝ) ≤ flooredDistance x_obs y_obs z_obs x_src y_src z_src := by
  constructor
  · rfl
  · have h := le_max_right
      (Real.sqrt ((x_obs - x_src) ^ 2 + (y_obs - y_src) ^ 2 +
        (z_obs - z_src) ^ 2)) (1.0 : ℝ)
    unfold flooredDistance
    exact le_trans (by norm_num) h

/-- C5: the prism forward response equals exactly the sum of the sphere
forward responses of the 3×3×3 sub-grid of point sources spanning the prism,
each an equal-volume equivalent sphere of radius `(3*dV/(4*pi))^(1/3)` with
`dV` one twenty-seventh of the prism volume. -/
theorem C5_prism_superposition (x_obs y_obs z_obs x1 x2 y1 y2 z1 z2
    susceptibility inclination declination : ℝ) :
    forward_magnetic_prism x_obs y_obs z_obs x1 x2 y1 y2 z1 z2
      susceptibility inclination declination =
      prismSuperpositionSpec x_obs y_obs z_obs x1 x2 y1 y2 z1 z2
        susceptibility inclination declination := by
  simp only [forward_magnetic_prism, prismSuperpositionSpec]
  have hr : (x2 - x1) / 3 * ((y2 - y1) / 3) * ((z2 - z1) / 3) =
      (x2 - x1) * (y2 - y1) * (z2 - z1) / 27 := by ring
  rw [hr]

/-- C6: the sphere forward response is independent of the inducing-field
direction: for fixed observation point, source, radius and susceptibility,
any two (inclination, declination) pairs give identical anomalies, because
the magnetization vector derived from them never enters the returned
expression. -/
theorem C6_sphere_direction_independent (x_obs y_obs z_obs x_src y_src z_src
    radius susceptibility inc₁ dec₁ inc₂ dec₂ : ℝ) :
    forward_magnetic_sphere x_obs y_obs z_obs x_src y_src z_src radius
      susceptibility inc₁ dec₁ =
    forward_magnetic_sphere x_obs y_obs z_obs x_src y_src z_src radius
      susceptibility inc₂ dec₂ := rfl
